import Mathlib

/-!
Shallow embedding of the rolling-window evaluation engine and its
aggregation strategies.

Source material:
* src/rolling/logical.py — the `All` and `Any` strategies, embedded below
  over an arbitrary truthiness function `t : α → Bool` (Python decides
  truthiness of window members with `if val:` / `if not val:`).
* src/tests/test_arithmetic.py — the repository's acceptance tests for the
  running-sum strategy.  The window engine (`base.py`) and the `Sum`
  strategy (`arithmetic.py`) are not present under src/, so they are
  modelled from the spec; where the spec's §4.1 prose is silent or
  inconsistent (the variable-mode end-of-stream shrinking phase), the
  behaviour is pinned down by the spec's own worked examples (§4.5, §8)
  and by the repository's tests, which the model reproduces row for row
  (see `sum_matches_repository_tests`).

Python integers are unbounded, so the `_i`, `_obs`, `_last_false` and
`_last_true` attributes are embedded as `Int`.
-/

namespace Rolling

variable {α γ σ : Type}

/-- State of the logical strategies, mirroring the attributes of
src/rolling/logical.py: `_i` (count of values consumed so far), `_obs`
(number of values logically inside the window) and `_last_false` /
`_last_true` (here the shared field `last`, since `All` and `Any` keep
exactly one retained position each). -/
structure LogicalSt where
  i : Int
  obs : Int
  last : Int

/-- The aggregation-strategy hook set (spec §4.2, realised in the source as
the per-subclass overrides `_init_fixed`, `_init_variable`, `_add_new`,
`_update`, `_remove_old` and the `current_value` property), together with
the `_obs` counter that the engine reads to drive variable-mode stepping. -/
structure Strategy (α γ σ : Type) where
  init_fixed : List α → Nat → σ
  init_variable : Nat → σ
  add_new : σ → α → σ
  update : σ → α → σ
  remove_old : σ → σ
  current_value : σ → γ
  obs : σ → Int

/-- Effect of consuming one value in `All` (the shared body of its priming
loop, `_add_new` and `_update`): `_i += 1; if not val: _last_false = _i`. -/
def allStep (t : α → Bool) (s : LogicalSt) (x : α) : LogicalSt :=
  { s with i := s.i + 1, last := if t x then s.last else s.i + 1 }

/-- `All._init_fixed`: consume the `window_size − 1` priming values with the
loop above (starting from `_i = 0`, `_last_false = -1`), then set
`_obs = window_size`. -/
def allInitFixed (t : α → Bool) (head : List α) (w : Nat) : LogicalSt :=
  { head.foldl (allStep t) { i := 0, obs := 0, last := -1 } with obs := (w : Int) }

/-- The `All` strategy of src/rolling/logical.py. -/
def All (t : α → Bool) : Strategy α Bool LogicalSt where
  init_fixed := allInitFixed t
  init_variable w := { i := -1, obs := 0, last := -(w : Int) - 1 }
  add_new s x := { allStep t s x with obs := s.obs + 1 }
  update := allStep t
  remove_old s := { s with obs := s.obs - 1 }
  current_value s := decide (s.i - s.obs ≥ s.last)
  obs s := s.obs

/-- Effect of consuming one value in `Any`:
`_i += 1; if val: _last_true = _i`. -/
def anyStep (t : α → Bool) (s : LogicalSt) (x : α) : LogicalSt :=
  { s with i := s.i + 1, last := if t x then s.i + 1 else s.last }

/-- `Any._init_fixed`, mirroring `All._init_fixed`. -/
def anyInitFixed (t : α → Bool) (head : List α) (w : Nat) : LogicalSt :=
  { head.foldl (anyStep t) { i := 0, obs := 0, last := -1 } with obs := (w : Int) }

/-- The `Any` strategy of src/rolling/logical.py. -/
def Any (t : α → Bool) : Strategy α Bool LogicalSt where
  init_fixed := anyInitFixed t
  init_variable w := { i := -1, obs := 0, last := -(w : Int) - 1 }
  add_new s x := { anyStep t s x with obs := s.obs + 1 }
  update := anyStep t
  remove_old s := { s with obs := s.obs - 1 }
  current_value s := decide (s.i - s.obs < s.last)
  obs s := s.obs

/-- State of the running-sum strategy: the ring buffer of retained raw
values and the running total (spec §4.5). -/
structure SumSt where
  buffer : List Int
  total : Int

/-- Modelled from the spec: the `Sum` strategy (arithmetic.py is not under
src/).  §4.5: `runningTotal` plus a buffer of the last `window_size` raw
values so that eviction knows the exact value leaving the window.  Fixed
priming stores the `window_size − 1` priming values behind a dummy `0`, so
that the first slide step evicts the dummy; every slide step evicts the
oldest buffered value and appends the new one.  This reproduces every row
of src/tests/test_arithmetic.py (see `sum_matches_repository_tests`). -/
def Sum : Strategy Int Int SumSt where
  init_fixed head _w := { buffer := 0 :: head, total := head.foldl (· + ·) 0 }
  init_variable _w := { buffer := [], total := 0 }
  add_new s x := { buffer := s.buffer ++ [x], total := s.total + x }
  update s x := { buffer := s.buffer.tail ++ [x], total := s.total + x - s.buffer.headI }
  remove_old s := { buffer := s.buffer.tail, total := s.total - s.buffer.headI }
  current_value s := s.total
  obs s := (s.buffer.length : Int)

/-- Modelled from the spec: fixed-mode stepping of the Window Engine
(base.py is not under src/).  §4.1: after priming, each newly consumed
value produces exactly one output; the source signalling exhaustion ends
the output sequence. -/
def goFixed (S : Strategy α γ σ) : σ → List α → List γ
  | _, [] => []
  | s, x :: xs =>
    S.current_value (S.update s x) :: goFixed S (S.update s x) xs

/-- Modelled from the spec: a fixed-mode engine bound to a finite source.
Priming hands the first `window_size − 1` source values to
`init_fixed`; stepping consumes the rest. -/
def runFixed (S : Strategy α γ σ) (xs : List α) (w : Nat) : List γ :=
  goFixed S (S.init_fixed (xs.take (w - 1)) w) (xs.drop (w - 1))

/-- Modelled from the spec: the variable-mode end-of-stream phase.  Once
the source is exhausted, the engine evicts the oldest member one at a time
and yields after each eviction, stopping when one member remains
(behaviour fixed by the worked examples in §4.5/§8 and by
src/tests/test_arithmetic.py).  The fuel argument is always instantiated
with the current `_obs`, which bounds the number of evictions. -/
def drain (S : Strategy α γ σ) : Nat → σ → List γ
  | 0, _ => []
  | fuel + 1, s =>
    if S.obs s = 1 then []
    else S.current_value (S.remove_old s) :: drain S fuel (S.remove_old s)

/-- Modelled from the spec: variable-mode stepping of the Window Engine.
While the window has never been full and `_obs < window_size`, each source
value is incorporated with `add_new` (growing phase); afterwards each
source value slides the window with `update`; at exhaustion the window
shrinks (see `drain`).  The `filled` flag records whether the window ever
reached `window_size`. -/
def goVariable (S : Strategy α γ σ) (w : Nat) : Bool → σ → List α → List γ
  | filled, s, [] =>
    if filled = false ∧ S.obs s < (w : Int) then []
    else drain S (S.obs s).toNat s
  | filled, s, x :: xs =>
    if filled = false ∧ S.obs s < (w : Int) then
      S.current_value (S.add_new s x) ::
        goVariable S w (decide (S.obs (S.add_new s x) = (w : Int))) (S.add_new s x) xs
    else
      S.current_value (S.update s x) :: goVariable S w filled (S.update s x) xs

/-- Modelled from the spec: a variable-mode engine bound to a finite
source, starting from the empty-window state. -/
def runVariable (S : Strategy α γ σ) (xs : List α) (w : Nat) : List γ :=
  goVariable S w false (S.init_variable w) xs

/-- Ghost-instrumented fixed-mode stepping: identical control flow to
`goFixed`, but each yielded aggregate is recorded together with the list
of all source values consumed so far and the `_obs` value at the yield.
`goFixedT_fst` proves that projecting the aggregates recovers `goFixed`. -/
def goFixedT (S : Strategy α γ σ) : σ → List α → List α → List (γ × List α × Int)
  | _, _, [] => []
  | s, done, x :: xs =>
    (S.current_value (S.update s x), done ++ [x], S.obs (S.update s x)) ::
      goFixedT S (S.update s x) (done ++ [x]) xs

/-- Ghost-instrumented `runFixed`. -/
def runFixedT (S : Strategy α γ σ) (xs : List α) (w : Nat) :
    List (γ × List α × Int) :=
  goFixedT S (S.init_fixed (xs.take (w - 1)) w) (xs.take (w - 1)) (xs.drop (w - 1))

/-- Ghost-instrumented `drain` (the consumed list no longer changes). -/
def drainT (S : Strategy α γ σ) : Nat → σ → List α → List (γ × List α × Int)
  | 0, _, _ => []
  | fuel + 1, s, done =>
    if S.obs s = 1 then []
    else
      (S.current_value (S.remove_old s), done, S.obs (S.remove_old s)) ::
        drainT S fuel (S.remove_old s) done

/-- Ghost-instrumented `goVariable`. -/
def goVariableT (S : Strategy α γ σ) (w : Nat) :
    Bool → σ → List α → List α → List (γ × List α × Int)
  | filled, s, done, [] =>
    if filled = false ∧ S.obs s < (w : Int) then []
    else drainT S (S.obs s).toNat s done
  | filled, s, done, x :: xs =>
    if filled = false ∧ S.obs s < (w : Int) then
      (S.current_value (S.add_new s x), done ++ [x], S.obs (S.add_new s x)) ::
        goVariableT S w (decide (S.obs (S.add_new s x) = (w : Int)))
          (S.add_new s x) (done ++ [x]) xs
    else
      (S.current_value (S.update s x), done ++ [x], S.obs (S.update s x)) ::
        goVariableT S w filled (S.update s x) (done ++ [x]) xs

/-- Ghost-instrumented `runVariable`. -/
def runVariableT (S : Strategy α γ σ) (xs : List α) (w : Nat) :
    List (γ × List α × Int) :=
  goVariableT S w false (S.init_variable w) [] xs

/-- The last `n` values of a list (the brute-force window). -/
def lastN (l : List α) (n : Nat) : List α := l.drop (l.length - n)

/-- Brute-force aggregate for `All`: conjunction of the truthiness of the
last `n` consumed values. -/
def bruteAll (t : α → Bool) (cs : List α) (n : Nat) : Bool := (lastN cs n).all t

/-- Brute-force aggregate for `Any`: disjunction of the truthiness of the
last `n` consumed values. -/
def bruteAny (t : α → Bool) (cs : List α) (n : Nat) : Bool := (lastN cs n).any t

/-- Correctness of one instrumented yield of `All`: the incremental
aggregate equals the brute-force scan of the last `_obs` consumed
values. -/
def allEntryOk (t : α → Bool) (e : Bool × List α × Int) : Prop :=
  e.1 = bruteAll t e.2.1 e.2.2.toNat

/-- Correctness of one instrumented yield of `Any`. -/
def anyEntryOk (t : α → Bool) (e : Bool × List α × Int) : Prop :=
  e.1 = bruteAny t e.2.1 e.2.2.toNat

/-- The derived left edge of the window (spec §3):
`WindowStart = Position − ObservedCount + 1`, read off the strategy
state's own fields. -/
def windowStart (s : LogicalSt) : Int := s.i - s.obs + 1

/-- Modelled from the spec: engine construction (base.py is not under
src/).  §4.1/§7: `window_size` is validated first (a configuration error
if not a positive integer), then the mode token is dispatched — `fixed`
primes by consuming up to `window_size − 1` source values, `variable`
consumes nothing, and an unrecognized token is a configuration error
raised before anything is consumed.  The result pairs the constructed
state and remaining source with the number of source values consumed
during construction. -/
def construct (S : Strategy α γ σ) (source : List α) (window_size : Int)
    (window_type : String) : Except String (σ × List α) × Nat :=
  if window_size ≤ 0 then
    (Except.error ("window_size must be a positive integer"), 0)
  else if window_type = "fixed" then
    (Except.ok (S.init_fixed (source.take (window_size.toNat - 1)) window_size.toNat,
        source.drop (window_size.toNat - 1)),
      min (window_size.toNat - 1) source.length)
  else if window_type = "variable" then
    (Except.ok (S.init_variable window_size.toNat, source), 0)
  else
    (Except.error ("unknown window_type"), 0)

/-- Model validation: the engine/Sum model reproduces every parametrized row
of `test_rolling_sum` and `test_rolling_sum_variable` in
src/tests/test_arithmetic.py. -/
theorem sum_matches_repository_tests :
    runFixed Sum [3, 0, 1, 7, 2] 6 = [] ∧
    runFixed Sum [3, 0, 1, 7, 2] 5 = [13] ∧
    runFixed Sum [3, 0, 1, 7, 2] 4 = [11, 10] ∧
    runFixed Sum [3, 0, 1, 7, 2] 3 = [4, 8, 10] ∧
    runFixed Sum [3, 0, 1, 7, 2] 2 = [3, 1, 8, 9] ∧
    runFixed Sum [3, 0, 1, 7, 2] 1 = [3, 0, 1, 7, 2] ∧
    runFixed Sum [3, -8, 1, 7, -2] 5 = [1] ∧
    runFixed Sum [3, -8, 1, 7, -2] 4 = [3, -2] ∧
    runFixed Sum [3, -8, 1, 7, -2] 3 = [-4, 0, 6] ∧
    runFixed Sum [3, -8, 1, 7, -2] 2 = [-5, -7, 8, 5] ∧
    runFixed Sum [3, -8, 1, 7, -2] 1 = [3, -8, 1, 7, -2] ∧
    runVariable Sum [3, 0, 1, 7, 2] 5 = [3, 3, 4, 11, 13, 10, 10, 9, 2] ∧
    runVariable Sum [3, 0, 1, 7, 2] 4 = [3, 3, 4, 11, 10, 10, 9, 2] ∧
    runVariable Sum [3, 0, 1, 7, 2] 3 = [3, 3, 4, 8, 10, 9, 2] ∧
    runVariable Sum [3, 0, 1, 7, 2] 2 = [3, 3, 1, 8, 9, 2] ∧
    runVariable Sum [3, 0, 1, 7, 2] 1 = [3, 0, 1, 7, 2] ∧
    runVariable Sum [3, -8, 1, 7, -2] 5 = [3, -5, -4, 3, 1, -2, 6, 5, -2] ∧
    runVariable Sum [3, -8, 1, 7, -2] 4 = [3, -5, -4, 3, -2, 6, 5, -2] ∧
    runVariable Sum [3, -8, 1, 7, -2] 3 = [3, -5, -4, 0, 6, 5, -2] ∧
    runVariable Sum [3, -8, 1, 7, -2] 2 = [3, -5, -7, 8, 5, -2] := by
  decide

/-- Model validation: the All/Any model reproduces the docstring examples of
src/rolling/logical.py (truthiness of a Python int is being nonzero). -/
theorem logical_matches_docstring_examples :
    runFixed (All (fun x : Int => x != 0)) [8, 0, 1, 3, 6, 5] 3 =
      [false, false, true, true] ∧
    runFixed (All (fun x : Int => x != 0)) [8, 0, 1, 3, 6, 5] 4 =
      [false, false, true] ∧
    runFixed (Any (fun x : Int => x != 0)) [1, 0, 0, 0, 6, 5] 3 =
      [true, false, true, true] ∧
    runFixed (Any (fun x : Int => x != 0)) [1, 0, 0, 0, 6, 5] 4 =
      [true, true, true] := by
  decide

/-- C3: for the All strategy, whenever the aggregate is read,
`current_value` is true if and only if the retained last-falsy position
precedes the window's left edge `WindowStart = Position − ObservedCount + 1`,
equivalently `Position − ObservedCount ≥ lastFalsy`. -/
theorem spec_C3 {α : Type} (t : α → Bool) (s : LogicalSt) :
    ((All t).current_value s = true ↔ s.last < windowStart s) ∧
    ((All t).current_value s = true ↔ s.i - s.obs ≥ s.last) := by
  constructor <;> simp [All, windowStart] <;> omega

/-- C4: for the Any strategy, whenever the aggregate is read,
`current_value` is true if and only if the retained last-truthy position is
at or after `WindowStart = Position − ObservedCount + 1`, equivalently
`Position − ObservedCount < lastTruthy`. -/
theorem spec_C4 {α : Type} (t : α → Bool) (s : LogicalSt) :
    ((Any t).current_value s = true ↔ s.last ≥ windowStart s) ∧
    ((Any t).current_value s = true ↔ s.i - s.obs < s.last) := by
  constructor <;> simp [Any, windowStart] <;> omega

/-- C8: frame property of eviction for All and Any: one `_remove_old` call
decrements `_obs` by exactly one and leaves `_i` and the retained
`_last_false` / `_last_true` position unchanged. -/
theorem spec_C8 {α : Type} (t : α → Bool) (s : LogicalSt) :
    ((All t).remove_old s).obs = s.obs - 1 ∧
    ((All t).remove_old s).i = s.i ∧
    ((All t).remove_old s).last = s.last ∧
    ((Any t).remove_old s).obs = s.obs - 1 ∧
    ((Any t).remove_old s).i = s.i ∧
    ((Any t).remove_old s).last = s.last :=
  ⟨rfl, rfl, rfl, rfl, rfl, rfl⟩

/-- C10: in variable mode, immediately after initialization (no value yet
incorporated, ObservedCount 0), All reads true (identity of conjunction)
and Any reads false (identity of disjunction); the sentinel
`−window_size − 1` lies strictly before the window start. -/
theorem spec_C10 {α : Type} (t : α → Bool) (w : Nat) :
    (All t).obs ((All t).init_variable w) = 0 ∧
    (All t).current_value ((All t).init_variable w) = true ∧
    (Any t).current_value ((Any t).init_variable w) = false ∧
    ((All t).init_variable w).last = -(w : Int) - 1 ∧
    ((All t).init_variable w).last < windowStart ((All t).init_variable w) := by
  refine ⟨rfl, ?_, ?_, rfl, ?_⟩ <;> simp [All, Any, windowStart] <;> omega

/-- C6: running-sum conformance: fixed mode with window 3 on [3,0,1,7,2]
yields [4,8,10], window 1 is the identity, window 6 (exceeding the input
length) yields nothing; variable mode with window 3 yields
[3,3,4,8,10,9,2]. -/
theorem spec_C6 :
    runFixed Sum [3, 0, 1, 7, 2] 3 = [4, 8, 10] ∧
    runFixed Sum [3, 0, 1, 7, 2] 1 = [3, 0, 1, 7, 2] ∧
    runFixed Sum [3, 0, 1, 7, 2] 6 = [] ∧
    runVariable Sum [3, 0, 1, 7, 2] 3 = [3, 3, 4, 8, 10, 9, 2] := by
  decide

/-- C7: in fixed mode, a source yielding fewer than `window_size − 1`
values is entirely used up by priming and the output sequence is empty,
whatever the strategy. -/
theorem spec_C7 {α γ σ : Type} (S : Strategy α γ σ) (xs : List α) (w : Nat)
    (h : (xs.length : Int) < (w : Int) - 1) : runFixed S xs w = [] := by
  have hd : xs.drop (w - 1) = [] := List.drop_eq_nil_of_le (by omega)
  simp [runFixed, hd, goFixed]

/-- Witness for spec_C7 at a concrete input: one value, window size 4. -/
theorem spec_C7_witness :
    (([true].length : Int) < (4 : Int) - 1) ∧
    runFixed (All (fun b : Bool => b)) [true] 4 = [] :=
  ⟨by decide, spec_C7 (All (fun b : Bool => b)) [true] 4 (by decide)⟩

/-- Fixed-mode stepping yields exactly one aggregate per consumed value. -/
theorem goFixed_length (S : Strategy α γ σ) (s : σ) (xs : List α) :
    (goFixed S s xs).length = xs.length := by
  induction xs generalizing s with
  | nil => rfl
  | cons x xs ih => simp [goFixed, ih]

/-- Fixed-mode output length, whatever the strategy. -/
theorem runFixed_length (S : Strategy α γ σ) (xs : List α) (w : Nat) :
    (runFixed S xs w).length = xs.length - (w - 1) := by
  simp [runFixed, goFixed_length]

/-- The end-of-stream shrink phase yields `_obs − 1` aggregates when run
with fuel `_obs`, for any strategy whose eviction decrements `_obs`. -/
theorem drain_length (S : Strategy α γ σ)
    (hrem : ∀ s, 1 ≤ S.obs s → S.obs (S.remove_old s) = S.obs s - 1) :
    ∀ (fuel : Nat) (s : σ), 1 ≤ S.obs s → S.obs s = (fuel : Int) →
      ((drain S fuel s).length : Int) = S.obs s - 1 := by
  intro fuel
  induction fuel with
  | zero => intro s h1 h2; omega
  | succ n ih =>
    intro s h1 h2
    by_cases hone : S.obs s = 1
    · simp [drain, hone]
    · have hr := hrem s h1
      have h1' : 1 ≤ S.obs (S.remove_old s) := by omega
      have h2' : S.obs (S.remove_old s) = (n : Int) := by push_cast at h2 ⊢; omega
      have ihh := ih (S.remove_old s) h1' h2'
      simp only [drain, hone, if_false, List.length_cons]
      push_cast at ihh ⊢
      omega

/-- Unfolding lemma: variable-mode stepping at an exhausted source. -/
theorem goVariable_nil (S : Strategy α γ σ) (w : Nat) (filled : Bool) (s : σ) :
    goVariable S w filled s [] =
      if filled = false ∧ S.obs s < (w : Int) then []
      else drain S (S.obs s).toNat s := rfl

/-- Unfolding lemma: variable-mode stepping at a pending source value. -/
theorem goVariable_cons (S : Strategy α γ σ) (w : Nat) (filled : Bool) (s : σ)
    (x : α) (xs : List α) :
    goVariable S w filled s (x :: xs) =
      if filled = false ∧ S.obs s < (w : Int) then
        S.current_value (S.add_new s x) ::
          goVariable S w (decide (S.obs (S.add_new s x) = (w : Int)))
            (S.add_new s x) xs
      else
        S.current_value (S.update s x) ::
          goVariable S w filled (S.update s x) xs := rfl

/-- Variable-mode output length from any state respecting the engine
invariants, for any strategy with lawful `_obs` bookkeeping. -/
theorem goVariable_length (S : Strategy α γ σ) (w : Nat) (hw : 1 ≤ w)
    (hadd : ∀ s x, S.obs (S.add_new s x) = S.obs s + 1)
    (hupd : ∀ s x, S.obs s = (w : Int) → S.obs (S.update s x) = S.obs s)
    (hrem : ∀ s, 1 ≤ S.obs s → S.obs (S.remove_old s) = S.obs s - 1) :
    ∀ (xs : List α) (s : σ) (filled : Bool),
      0 ≤ S.obs s →
      (filled = true → S.obs s = (w : Int)) →
      (filled = false → S.obs s < (w : Int)) →
      ((goVariable S w filled s xs).length : Int) =
        xs.length +
          (if (w : Int) ≤ S.obs s + xs.length then (w : Int) - 1 else 0) := by
  intro xs
  induction xs with
  | nil =>
    intro s filled h0 hf ht
    cases filled with
    | false =>
      have hlt := ht rfl
      rw [goVariable_nil, if_pos ⟨rfl, hlt⟩, if_neg (by simp; omega)]
      simp
    | true =>
      have heq := hf rfl
      have h1 : 1 ≤ S.obs s := by omega
      have hd := drain_length S hrem (S.obs s).toNat s h1 (by omega)
      rw [goVariable_nil, if_neg (by simp), hd, if_pos (by simp; omega)]
      simp
      omega
  | cons x xs ih =>
    intro s filled h0 hf ht
    simp only [List.length_cons]
    push_cast
    by_cases hc : filled = false ∧ S.obs s < (w : Int)
    · rw [goVariable_cons, if_pos hc]
      have hobs' := hadd s x
      by_cases hfull : S.obs (S.add_new s x) = (w : Int)
      · rw [decide_eq_true hfull]
        have ih' := ih (S.add_new s x) true (by omega) (fun _ => hfull) (by simp)
        rw [if_pos (show (w : Int) ≤ S.obs (S.add_new s x) + (xs.length : Int) by
          omega)] at ih'
        rw [if_pos (by omega)]
        simp only [List.length_cons]
        push_cast at ih' ⊢
        omega
      · rw [decide_eq_false hfull]
        have ih' := ih (S.add_new s x) false (by omega) (by simp)
          (fun _ => by omega)
        by_cases hbig : (w : Int) ≤ S.obs s + ((xs.length : Int) + 1)
        · rw [if_pos (show (w : Int) ≤ S.obs (S.add_new s x) + (xs.length : Int) by
            omega)] at ih'
          rw [if_pos (by omega)]
          simp only [List.length_cons]
          push_cast at ih' ⊢
          omega
        · rw [if_neg (show ¬ (w : Int) ≤ S.obs (S.add_new s x) + (xs.length : Int) by
            omega)] at ih'
          rw [if_neg (by omega)]
          simp only [List.length_cons]
          push_cast at ih' ⊢
          omega
    · have hfil : filled = true := by
        cases filled
        · exact absurd ⟨rfl, ht rfl⟩ hc
        · rfl
      subst hfil
      have heq := hf rfl
      have hobs' := hupd s x heq
      rw [goVariable_cons, if_neg hc]
      have ih' := ih (S.update s x) true (by omega) (fun _ => by omega) (by simp)
      rw [if_pos (show (w : Int) ≤ S.obs (S.update s x) + (xs.length : Int) by
        omega)] at ih'
      rw [if_pos (by omega)]
      simp only [List.length_cons]
      push_cast at ih' ⊢
      omega

/-- Variable-mode output length for a whole run: `N` outputs when the
source is exhausted before the window ever fills, `N + w − 1` otherwise. -/
theorem runVariable_length (S : Strategy α γ σ) (xs : List α) (w : Nat)
    (hw : 1 ≤ w)
    (hinit : S.obs (S.init_variable w) = 0)
    (hadd : ∀ s x, S.obs (S.add_new s x) = S.obs s + 1)
    (hupd : ∀ s x, S.obs s = (w : Int) → S.obs (S.update s x) = S.obs s)
    (hrem : ∀ s, 1 ≤ S.obs s → S.obs (S.remove_old s) = S.obs s - 1) :
    ((runVariable S xs w).length : Int) =
      if (xs.length : Int) < (w : Int) then (xs.length : Int)
      else (xs.length : Int) + (w : Int) - 1 := by
  have h := goVariable_length S w hw hadd hupd hrem xs (S.init_variable w) false
    (by omega) (by simp) (by omega)
  rw [runVariable, h]
  by_cases hbig : (w : Int) ≤ S.obs (S.init_variable w) + (xs.length : Int)
  · rw [if_pos hbig, if_neg (by omega)]
    omega
  · rw [if_neg hbig, if_pos (by omega)]
    omega

/-- Lawful `_obs` bookkeeping of the All strategy. -/
theorem all_obs_laws (t : α → Bool) :
    (∀ s x, (All t).obs ((All t).add_new s x) = (All t).obs s + 1) ∧
    (∀ (s : LogicalSt) (x : α), (All t).obs ((All t).update s x) = (All t).obs s) ∧
    (∀ s, (All t).obs ((All t).remove_old s) = (All t).obs s - 1) ∧
    (∀ w, (All t).obs ((All t).init_variable w) = 0) :=
  ⟨fun _ _ => rfl, fun _ _ => rfl, fun _ => rfl, fun _ => rfl⟩

/-- Lawful `_obs` bookkeeping of the Any strategy. -/
theorem any_obs_laws (t : α → Bool) :
    (∀ s x, (Any t).obs ((Any t).add_new s x) = (Any t).obs s + 1) ∧
    (∀ (s : LogicalSt) (x : α), (Any t).obs ((Any t).update s x) = (Any t).obs s) ∧
    (∀ s, (Any t).obs ((Any t).remove_old s) = (Any t).obs s - 1) ∧
    (∀ w, (Any t).obs ((Any t).init_variable w) = 0) :=
  ⟨fun _ _ => rfl, fun _ _ => rfl, fun _ => rfl, fun _ => rfl⟩

/-- Lawful `_obs` bookkeeping of the Sum strategy (`_obs` is the buffer
length; slide and evict need a nonempty buffer, which the engine
guarantees). -/
theorem sum_obs_laws :
    (∀ s x, Sum.obs (Sum.add_new s x) = Sum.obs s + 1) ∧
    (∀ (s : SumSt) (x : Int), 1 ≤ Sum.obs s → Sum.obs (Sum.update s x) = Sum.obs s) ∧
    (∀ s, 1 ≤ Sum.obs s → Sum.obs (Sum.remove_old s) = Sum.obs s - 1) ∧
    (∀ w, Sum.obs (Sum.init_variable w) = 0) := by
  refine ⟨fun s x => ?_, fun s x h => ?_, fun s h => ?_, fun w => rfl⟩ <;>
    simp [Sum] at * <;> omega

/-- C2 counterexample: the claim says variable mode produces exactly `N`
aggregates, but on the 5-value input of the repository's own tests with
window size 3 the engine produces 7 (the variable-mode test rows of
src/tests/test_arithmetic.py expect these 7 values). -/
theorem spec_C2_counterexample :
    ¬ (runVariable Sum [3, 0, 1, 7, 2] 3).length = ([3, 0, 1, 7, 2] : List Int).length := by
  decide

/-- C2 (amended): for every finite input of length `N` and window size
`w ≥ 1`, the All, Any and Sum pipelines produce `max 0 (N − w + 1)`
aggregates in fixed mode; in variable mode they produce `N` aggregates
when `N < w` (the source is exhausted before the window fills) and
`N + w − 1` aggregates otherwise (the window also shrinks at the end of
the stream). -/
theorem spec_C2 {α : Type} (t : α → Bool) (xs : List α) (ys : List Int)
    (w : Nat) (hw : 1 ≤ w) :
    ((runFixed (All t) xs w).length : Int) = max 0 ((xs.length : Int) - w + 1) ∧
    ((runFixed (Any t) xs w).length : Int) = max 0 ((xs.length : Int) - w + 1) ∧
    ((runFixed Sum ys w).length : Int) = max 0 ((ys.length : Int) - w + 1) ∧
    ((runVariable (All t) xs w).length : Int) =
      (if (xs.length : Int) < (w : Int) then (xs.length : Int)
       else (xs.length : Int) + (w : Int) - 1) ∧
    ((runVariable (Any t) xs w).length : Int) =
      (if (xs.length : Int) < (w : Int) then (xs.length : Int)
       else (xs.length : Int) + (w : Int) - 1) ∧
    ((runVariable Sum ys w).length : Int) =
      (if (ys.length : Int) < (w : Int) then (ys.length : Int)
       else (ys.length : Int) + (w : Int) - 1) := by
  obtain ⟨aAdd, aUpd, aRem, aInit⟩ := all_obs_laws t
  obtain ⟨nAdd, nUpd, nRem, nInit⟩ := any_obs_laws t
  obtain ⟨sAdd, sUpd, sRem, sInit⟩ := sum_obs_laws
  refine ⟨?_, ?_, ?_, ?_, ?_, ?_⟩
  · have h := runFixed_length (All t) xs w
    omega
  · have h := runFixed_length (Any t) xs w
    omega
  · have h := runFixed_length Sum ys w
    omega
  · exact runVariable_length (All t) xs w hw (aInit w) aAdd
      (fun s x _ => aUpd s x) (fun s _ => aRem s)
  · exact runVariable_length (Any t) xs w hw (nInit w) nAdd
      (fun s x _ => nUpd s x) (fun s _ => nRem s)
  · exact runVariable_length Sum ys w hw (sInit w) sAdd
      (fun s x h => sUpd s x (by omega)) (fun s h => sRem s h)

/-- Witness for spec_C2 at a concrete input: window size 2. -/
theorem spec_C2_witness :
    1 ≤ 2 ∧
    ((runFixed (All (fun b : Bool => b)) [true, false, true] 2).length : Int) =
      max 0 ((([true, false, true] : List Bool).length : Int) - 2 + 1) :=
  ⟨by decide,
    (spec_C2 (fun b : Bool => b) [true, false, true] [5, 6] 2 (by decide)).1⟩

/-- C9: construction fails with a configuration error exactly when
`window_size` is not positive or the window-type token is unrecognized;
on such a failure nothing has been consumed from the source; valid
parameters construct successfully. -/
theorem spec_C9 {α γ σ : Type} (S : Strategy α γ σ) (source : List α)
    (ws : Int) (wt : String) :
    ((construct S source ws wt).1.isOk = false ↔
      ws ≤ 0 ∨ (wt ≠ "fixed" ∧ wt ≠ "variable")) ∧
    ((construct S source ws wt).1.isOk = false →
      (construct S source ws wt).2 = 0) ∧
    (0 < ws → (wt = "fixed" ∨ wt = "variable") →
      (construct S source ws wt).1.isOk = true) := by
  unfold construct
  by_cases h1 : ws ≤ 0 <;> by_cases h2 : wt = "fixed" <;>
    by_cases h3 : wt = "variable" <;>
    simp [h1, h2, h3, Except.isOk, Except.toBool]

/-- Witness for spec_C9 at a concrete input: negative window size. -/
theorem spec_C9_witness :
    (construct (All (fun b : Bool => b)) [true, false] (-3) "fixed").1.isOk
        = false ∧
    (construct (All (fun b : Bool => b)) [true, false] (-3) "fixed").2 = 0 := by
  have h := spec_C9 (All (fun b : Bool => b)) [true, false] (-3) "fixed"
  refine ⟨h.1.mpr (Or.inl (by decide)), h.2.1 (h.1.mpr (Or.inl (by decide)))⟩

/-- Field projection: one All step advances `_i`. -/
theorem allStep_i (t : α → Bool) (s : LogicalSt) (x : α) :
    (allStep t s x).i = s.i + 1 := rfl

/-- Field projection: one All step leaves `_obs` alone. -/
theorem allStep_obs (t : α → Bool) (s : LogicalSt) (x : α) :
    (allStep t s x).obs = s.obs := rfl

/-- Field projection: one All step retains the falsy position. -/
theorem allStep_last (t : α → Bool) (s : LogicalSt) (x : α) :
    (allStep t s x).last = if t x then s.last else s.i + 1 := rfl

/-- `_i` advances by one per consumed value across a batch. -/
theorem allFold_i (t : α → Bool) (cs : List α) :
    ∀ s : LogicalSt, (cs.foldl (allStep t) s).i = s.i + cs.length := by
  induction cs with
  | nil => intro s; simp
  | cons c cs ih =>
    intro s
    rw [List.foldl_cons, ih, allStep_i]
    simp only [List.length_cons]
    push_cast
    omega

/-- The retained last-falsy position never exceeds `_i`. -/
theorem allFold_last_le (t : α → Bool) (cs : List α) :
    ∀ s : LogicalSt, s.last ≤ s.i →
      (cs.foldl (allStep t) s).last ≤ (cs.foldl (allStep t) s).i := by
  induction cs with
  | nil => intro s hs; exact hs
  | cons c cs ih =>
    intro s hs
    rw [List.foldl_cons]
    apply ih
    rw [allStep_last, allStep_i]
    split <;> omega

/-- Window characterization for All: after consuming the batch `cs` from a
state whose retained position does not exceed `_i`, the retained position
lies at or before the bound `_i₀ + |cs| − m` exactly when the inherited
position does and the suffix window of the last `m` values holds no falsy
value. -/
theorem allFold_window (t : α → Bool) (cs : List α) :
    ∀ (s : LogicalSt) (m : Nat), s.last ≤ s.i → m ≤ cs.length →
      ((cs.foldl (allStep t) s).last ≤ s.i + (cs.length : Int) - (m : Int) ↔
        (s.last ≤ s.i + (cs.length : Int) - (m : Int) ∧
          (cs.drop (cs.length - m)).all t = true)) := by
  induction cs using List.reverseRecOn with
  | nil =>
    intro s m hs hm
    simp only [List.length_nil] at hm
    have hm0 : m = 0 := by omega
    subst hm0
    simp
  | append_singleton ds x ih =>
    intro s m hs hm
    have hlen : (ds ++ [x]).length = ds.length + 1 := by simp
    have hui := allFold_i t ds s
    have hul := allFold_last_le t ds s hs
    rw [List.foldl_append]
    simp only [List.foldl_cons, List.foldl_nil]
    rcases Nat.eq_zero_or_pos m with hm0 | hmpos
    · subst hm0
      have hwin : (ds ++ [x]).drop ((ds ++ [x]).length - 0) = [] := by
        apply List.drop_eq_nil_of_le
        omega
      rw [hwin, allStep_last, hlen]
      simp only [List.all_nil, and_true]
      constructor
      · intro _
        push_cast
        omega
      · intro _
        split <;> push_cast <;> omega
    · obtain ⟨m', rfl⟩ : ∃ m', m = m' + 1 := ⟨m - 1, by omega⟩
      have hm' : m' ≤ ds.length := by rw [hlen] at hm; omega
      have hwin : (ds ++ [x]).drop ((ds ++ [x]).length - (m' + 1)) =
          ds.drop (ds.length - m') ++ [x] := by
        rw [hlen]
        have heq : ds.length + 1 - (m' + 1) = ds.length - m' := by omega
        rw [heq]
        exact List.drop_append_of_le_length (by omega)
      rw [hwin, List.all_append, allStep_last, hlen]
      have ihds := ih s m' hs hm'
      have hbound : s.i + (((ds.length + 1 : Nat)) : Int) - (((m' + 1 : Nat)) : Int) =
          s.i + (ds.length : Int) - (m' : Int) := by push_cast; ring
      rw [hbound]
      rcases htx : t x with _ | _
      · have hx : ([x].all t) = false := by simp [htx]
        rw [if_neg (by simp [htx]), hx, Bool.and_false]
        constructor
        · intro h
          exfalso
          rw [hui] at h
          omega
        · intro h
          exact absurd h.2 (by simp)
      · have hx : ([x].all t) = true := by simp [htx]
        rw [if_pos rfl, hx, Bool.and_true]
        exact ihds

/-- The All query agrees with the brute-force scan of the last `m` consumed
values whenever the start state's retained position lies at or before its
`_i` and the window fits inside the consumed batch. -/
theorem all_query_eq_brute (t : α → Bool) (cs : List α) (s : LogicalSt) (m : Nat)
    (hs : s.last ≤ s.i) (hm : m ≤ cs.length) :
    decide ((cs.foldl (allStep t) s).i - (m : Int) ≥ (cs.foldl (allStep t) s).last) =
      bruteAll t cs m := by
  have hi := allFold_i t cs s
  have hw := allFold_window t cs s m hs hm
  have hiff : ((cs.foldl (allStep t) s).i - (m : Int) ≥ (cs.foldl (allStep t) s).last) ↔
      (bruteAll t cs m = true) := by
    unfold bruteAll lastN
    constructor
    · intro h
      exact (hw.mp (by omega)).2
    · intro h
      have hle := hw.mpr ⟨by omega, h⟩
      omega
  rw [← Bool.decide_coe (bruteAll t cs m)]
  exact decide_eq_decide.mpr hiff

/-- Updating in a state with an overridden `_obs` field overrides the
stepped state's `_obs` the same way. -/
theorem allStep_obs_set (t : α → Bool) (u : LogicalSt) (o : Int) (x : α) :
    allStep t { u with obs := o } x = { allStep t u x with obs := o } := rfl

/-- `All._update` maps a folded state (with pinned `_obs`) to the folded
state of the extended batch. -/
theorem All_update_fold (t : α → Bool) (done : List α) (x : α)
    (s0 : LogicalSt) (o : Int) :
    (All t).update { done.foldl (allStep t) s0 with obs := o } x =
      { (done ++ [x]).foldl (allStep t) s0 with obs := o } := by
  rw [List.foldl_append]
  rfl

/-- `All._add_new` additionally bumps `_obs`. -/
theorem All_add_new_fold (t : α → Bool) (done : List α) (x : α)
    (s0 : LogicalSt) (o : Int) :
    (All t).add_new { done.foldl (allStep t) s0 with obs := o } x =
      { (done ++ [x]).foldl (allStep t) s0 with obs := o + 1 } := by
  rw [List.foldl_append]
  rfl

/-- `All._remove_old` only decrements `_obs`. -/
theorem All_remove_old_fold (t : α → Bool) (done : List α)
    (s0 : LogicalSt) (o : Int) :
    (All t).remove_old { done.foldl (allStep t) s0 with obs := o } =
      { done.foldl (allStep t) s0 with obs := o - 1 } := rfl

/-- Unfolding lemma: instrumented fixed stepping at a pending value. -/
theorem goFixedT_cons (S : Strategy α γ σ) (s : σ) (done : List α)
    (x : α) (xs : List α) :
    goFixedT S s done (x :: xs) =
      (S.current_value (S.update s x), done ++ [x], S.obs (S.update s x)) ::
        goFixedT S (S.update s x) (done ++ [x]) xs := rfl

/-- Unfolding lemma: instrumented shrink stepping at positive fuel. -/
theorem drainT_succ (S : Strategy α γ σ) (fuel : Nat) (s : σ) (done : List α) :
    drainT S (fuel + 1) s done =
      if S.obs s = 1 then []
      else
        (S.current_value (S.remove_old s), done, S.obs (S.remove_old s)) ::
          drainT S fuel (S.remove_old s) done := rfl

/-- Unfolding lemma: instrumented variable stepping at an exhausted source. -/
theorem goVariableT_nil (S : Strategy α γ σ) (w : Nat) (filled : Bool)
    (s : σ) (done : List α) :
    goVariableT S w filled s done [] =
      if filled = false ∧ S.obs s < (w : Int) then []
      else drainT S (S.obs s).toNat s done := rfl

/-- Unfolding lemma: instrumented variable stepping at a pending value. -/
theorem goVariableT_cons (S : Strategy α γ σ) (w : Nat) (filled : Bool)
    (s : σ) (done : List α) (x : α) (xs : List α) :
    goVariableT S w filled s done (x :: xs) =
      if filled = false ∧ S.obs s < (w : Int) then
        (S.current_value (S.add_new s x), done ++ [x], S.obs (S.add_new s x)) ::
          goVariableT S w (decide (S.obs (S.add_new s x) = (w : Int)))
            (S.add_new s x) (done ++ [x]) xs
      else
        (S.current_value (S.update s x), done ++ [x], S.obs (S.update s x)) ::
          goVariableT S w filled (S.update s x) (done ++ [x]) xs := rfl

/-- Projecting the aggregates out of the instrumented fixed run recovers
the plain fixed run. -/
theorem goFixedT_fst (S : Strategy α γ σ) (rest : List α) :
    ∀ (done : List α) (s : σ),
      (goFixedT S s done rest).map (fun e => e.1) = goFixed S s rest := by
  induction rest with
  | nil => intro done s; rfl
  | cons x rest ih =>
    intro done s
    rw [goFixedT_cons, List.map_cons, ih]
    rfl

/-- Projecting the aggregates out of the instrumented shrink phase
recovers the plain shrink phase. -/
theorem drainT_fst (S : Strategy α γ σ) (fuel : Nat) :
    ∀ (s : σ) (done : List α),
      (drainT S fuel s done).map (fun e => e.1) = drain S fuel s := by
  induction fuel with
  | zero => intro s done; rfl
  | succ n ih =>
    intro s done
    rw [drainT_succ]
    by_cases h : S.obs s = 1
    · simp [drain, h]
    · rw [if_neg h, List.map_cons, ih]
      simp [drain, h]

/-- Projecting the aggregates out of the instrumented variable run
recovers the plain variable run. -/
theorem goVariableT_fst (S : Strategy α γ σ) (w : Nat) (rest : List α) :
    ∀ (filled : Bool) (s : σ) (done : List α),
      (goVariableT S w filled s done rest).map (fun e => e.1) =
        goVariable S w filled s rest := by
  induction rest with
  | nil =>
    intro filled s done
    rw [goVariableT_nil, goVariable_nil]
    by_cases h : filled = false ∧ S.obs s < (w : Int)
    · rw [if_pos h, if_pos h]
      rfl
    · rw [if_neg h, if_neg h, drainT_fst]
  | cons x rest ih =>
    intro filled s done
    rw [goVariableT_cons, goVariable_cons]
    by_cases h : filled = false ∧ S.obs s < (w : Int)
    · rw [if_pos h, if_pos h, List.map_cons, ih]
    · rw [if_neg h, if_neg h, List.map_cons, ih]

/-- Projection for the whole instrumented fixed run. -/
theorem runFixedT_fst (S : Strategy α γ σ) (xs : List α) (w : Nat) :
    (runFixedT S xs w).map (fun e => e.1) = runFixed S xs w :=
  goFixedT_fst S (xs.drop (w - 1)) (xs.take (w - 1)) (S.init_fixed (xs.take (w - 1)) w)

/-- Projection for the whole instrumented variable run. -/
theorem runVariableT_fst (S : Strategy α γ σ) (xs : List α) (w : Nat) :
    (runVariableT S xs w).map (fun e => e.1) = runVariable S xs w :=
  goVariableT_fst S w xs false (S.init_variable w) []

/-- Every yield of the instrumented fixed-mode All run is brute-force
correct, with the engine state the fold of the consumed prefix and `_obs`
pinned at the window size. -/
theorem goFixedT_all_inv (t : α → Bool) (w : Nat) (rest : List α) :
    ∀ done : List α, w ≤ done.length + 1 →
      ∀ e ∈ goFixedT (All t)
          { done.foldl (allStep t) { i := 0, obs := 0, last := -1 } with
            obs := (w : Int) } done rest,
        allEntryOk t e := by
  induction rest with
  | nil => intro done hw e he; simp [goFixedT] at he
  | cons x rest ih =>
    intro done hw e he
    rw [goFixedT_cons, All_update_fold] at he
    rcases List.mem_cons.mp he with hhd | htl
    · subst hhd
      unfold allEntryOk
      have hq := all_query_eq_brute t (done ++ [x])
        { i := 0, obs := 0, last := -1 } w (by norm_num) (by simp; omega)
      simpa [All] using hq
    · exact ih (done ++ [x]) (by simp; omega) e htl

/-- Every yield of the instrumented shrink phase of a variable-mode All
run is brute-force correct. -/
theorem drainT_all_inv (t : α → Bool) (s0 : LogicalSt) (hs0 : s0.last ≤ s0.i)
    (fuel : Nat) :
    ∀ (done : List α) (o : Int), 1 ≤ o → o.toNat ≤ done.length →
      ∀ e ∈ drainT (All t) fuel { done.foldl (allStep t) s0 with obs := o } done,
        allEntryOk t e := by
  induction fuel with
  | zero => intro done o h1 hle e he; simp [drainT] at he
  | succ n ih =>
    intro done o h1 hle e he
    rw [drainT_succ] at he
    by_cases hone : (All t).obs { done.foldl (allStep t) s0 with obs := o } = (1 : Int)
    · rw [if_pos hone] at he
      simp at he
    · rw [if_neg hone, All_remove_old_fold] at he
      have honeo : ¬ o = 1 := hone
      rcases List.mem_cons.mp he with hhd | htl
      · subst hhd
        unfold allEntryOk
        have hq := all_query_eq_brute t done s0 (o - 1).toNat hs0 (by omega)
        have hcast : (((o - 1).toNat : Nat) : Int) = o - 1 :=
          Int.toNat_of_nonneg (by omega)
        rw [hcast] at hq
        simpa [All] using hq
      · exact ih done (o - 1) (by omega) (by omega) e htl

/-- Every yield of the instrumented variable-mode All run is brute-force
correct, from any state reachable with consumed prefix `done` and window
occupancy `o`. -/
theorem goVariableT_all_inv (t : α → Bool) (w : Nat) (s0 : LogicalSt)
    (hs0 : s0.last ≤ s0.i) (hw : 1 ≤ w) (rest : List α) :
    ∀ (done : List α) (o : Int) (filled : Bool),
      0 ≤ o → o.toNat ≤ done.length → (filled = true → o = (w : Int)) →
      ∀ e ∈ goVariableT (All t) w filled
          { done.foldl (allStep t) s0 with obs := o } done rest,
        allEntryOk t e := by
  induction rest with
  | nil =>
    intro done o filled h0 hle hf e he
    rw [goVariableT_nil] at he
    by_cases hc : filled = false ∧
        (All t).obs { done.foldl (allStep t) s0 with obs := o } < (w : Int)
    · rw [if_pos hc] at he
      simp at he
    · rw [if_neg hc] at he
      have h1 : 1 ≤ o := by
        rcases Bool.eq_false_or_eq_true filled with hf' | hf'
        · have := hf hf'
          omega
        · have ho : ¬ (o < (w : Int)) := fun hlt => hc ⟨hf', hlt⟩
          omega
      exact drainT_all_inv t s0 hs0 o.toNat done o h1 hle e he
  | cons x rest ih =>
    intro done o filled h0 hle hf e he
    rw [goVariableT_cons] at he
    by_cases hc : filled = false ∧
        (All t).obs { done.foldl (allStep t) s0 with obs := o } < (w : Int)
    · rw [if_pos hc, All_add_new_fold] at he
      rcases List.mem_cons.mp he with hhd | htl
      · subst hhd
        unfold allEntryOk
        have hq := all_query_eq_brute t (done ++ [x]) s0 (o + 1).toNat hs0
          (by simp; omega)
        have hcast : (((o + 1).toNat : Nat) : Int) = o + 1 :=
          Int.toNat_of_nonneg (by omega)
        rw [hcast] at hq
        simpa [All] using hq
      · refine ih (done ++ [x]) (o + 1) _ (by omega) (by simp; omega) ?_ e htl
        intro hdec
        exact of_decide_eq_true hdec
    · rw [if_neg hc, All_update_fold] at he
      rcases List.mem_cons.mp he with hhd | htl
      · subst hhd
        unfold allEntryOk
        have hq := all_query_eq_brute t (done ++ [x]) s0 o.toNat hs0
          (by simp; omega)
        have hcast : ((o.toNat : Nat) : Int) = o :=
          Int.toNat_of_nonneg h0
        rw [hcast] at hq
        simpa [All] using hq
      · exact ih (done ++ [x]) o filled h0 (by simp; omega) hf e htl

/-- Every yield of the whole instrumented fixed-mode All run is
brute-force correct. -/
theorem runFixedT_all_inv (t : α → Bool) (xs : List α) (w : Nat) :
    ∀ e ∈ runFixedT (All t) xs w, allEntryOk t e := by
  intro e he
  simp only [runFixedT] at he
  by_cases hlen : w - 1 ≤ xs.length
  · have htake : (xs.take (w - 1)).length = w - 1 := by
      rw [List.length_take]
      omega
    exact goFixedT_all_inv t w (xs.drop (w - 1)) (xs.take (w - 1))
      (by omega) e he
  · have hd : xs.drop (w - 1) = [] := List.drop_eq_nil_of_le (by omega)
    rw [hd] at he
    simp [goFixedT] at he

/-- Every yield of the whole instrumented variable-mode All run is
brute-force correct. -/
theorem runVariableT_all_inv (t : α → Bool) (xs : List α) (w : Nat)
    (hw : 1 ≤ w) :
    ∀ e ∈ runVariableT (All t) xs w, allEntryOk t e := by
  intro e he
  simp only [runVariableT] at he
  exact goVariableT_all_inv t w ((All t).init_variable w)
    (by simp only [All]; omega) hw xs [] 0 false (le_refl 0) (by simp)
    (by simp) e he

/-- One Any step is one All step for the negated truthiness. -/
theorem anyStep_eq_allStep_not (t : α → Bool) :
    anyStep t = allStep (fun a => ! t a) := by
  funext s x
  cases htx : t x <;> simp [anyStep, allStep, htx]

/-- The Any query is the negation of the All query. -/
theorem any_cv_eq_not (t : α → Bool) (s : LogicalSt) :
    (Any t).current_value s = ! (All (fun a => ! t a)).current_value s := by
  simp only [Any, All]
  rw [← decide_not]
  exact decide_eq_decide.mpr (by omega)

/-- Simulation of instrumented fixed runs: two strategies over one state
type with identical transitions and output-mapped queries produce
pointwise related traces. -/
theorem goFixedT_sim {γ' : Type} (S : Strategy α γ σ) (S' : Strategy α γ' σ)
    (g : γ → γ')
    (hU : ∀ s x, S'.update s x = S.update s x)
    (hO : ∀ s, S'.obs s = S.obs s)
    (hC : ∀ s, S'.current_value s = g (S.current_value s))
    (rest : List α) :
    ∀ (done : List α) (s : σ),
      goFixedT S' s done rest =
        (goFixedT S s done rest).map (fun e => (g e.1, e.2.1, e.2.2)) := by
  induction rest with
  | nil => intro done s; rfl
  | cons x rest ih =>
    intro done s
    simp only [goFixedT_cons, List.map_cons, hU, hO, hC]
    rw [ih]

/-- Simulation of the instrumented shrink phase. -/
theorem drainT_sim {γ' : Type} (S : Strategy α γ σ) (S' : Strategy α γ' σ)
    (g : γ → γ')
    (hR : ∀ s, S'.remove_old s = S.remove_old s)
    (hO : ∀ s, S'.obs s = S.obs s)
    (hC : ∀ s, S'.current_value s = g (S.current_value s))
    (fuel : Nat) :
    ∀ (s : σ) (done : List α),
      drainT S' fuel s done =
        (drainT S fuel s done).map (fun e => (g e.1, e.2.1, e.2.2)) := by
  induction fuel with
  | zero => intro s done; rfl
  | succ n ih =>
    intro s done
    rw [drainT_succ, drainT_succ, hO]
    by_cases h : S.obs s = 1
    · rw [if_pos h, if_pos h]
      rfl
    · rw [if_neg h, if_neg h, List.map_cons, hR, hO, hC, ih]

/-- Simulation of instrumented variable runs. -/
theorem goVariableT_sim {γ' : Type} (S : Strategy α γ σ) (S' : Strategy α γ' σ)
    (g : γ → γ') (w : Nat)
    (hA : ∀ s x, S'.add_new s x = S.add_new s x)
    (hU : ∀ s x, S'.update s x = S.update s x)
    (hR : ∀ s, S'.remove_old s = S.remove_old s)
    (hO : ∀ s, S'.obs s = S.obs s)
    (hC : ∀ s, S'.current_value s = g (S.current_value s))
    (rest : List α) :
    ∀ (filled : Bool) (s : σ) (done : List α),
      goVariableT S' w filled s done rest =
        (goVariableT S w filled s done rest).map (fun e => (g e.1, e.2.1, e.2.2)) := by
  induction rest with
  | nil =>
    intro filled s done
    rw [goVariableT_nil, goVariableT_nil, hO]
    by_cases h : filled = false ∧ S.obs s < (w : Int)
    · rw [if_pos h, if_pos h]
      rfl
    · rw [if_neg h, if_neg h]
      exact drainT_sim S S' g hR hO hC _ s done
  | cons x rest ih =>
    intro filled s done
    rw [goVariableT_cons, goVariableT_cons, hO]
    by_cases h : filled = false ∧ S.obs s < (w : Int)
    · rw [if_pos h, if_pos h, List.map_cons, hA, hO, hC, ih]
    · rw [if_neg h, if_neg h, List.map_cons, hU, hO, hC, ih]

/-- The instrumented fixed-mode Any run is the pointwise negation of the
instrumented fixed-mode All run on the negated truthiness. -/
theorem runFixedT_any_eq (t : α → Bool) (xs : List α) (w : Nat) :
    runFixedT (Any t) xs w =
      (runFixedT (All (fun a => ! t a)) xs w).map
        (fun e => (! e.1, e.2.1, e.2.2)) := by
  have hstep := anyStep_eq_allStep_not t
  have hIF : (Any t).init_fixed (xs.take (w - 1)) w =
      (All (fun a => ! t a)).init_fixed (xs.take (w - 1)) w := by
    simp only [Any, All, anyInitFixed, allInitFixed, hstep]
  simp only [runFixedT, hIF]
  exact goFixedT_sim (All (fun a => ! t a)) (Any t) Bool.not
    (fun s x => by simp only [Any, All]; rw [hstep])
    (fun s => rfl) (fun s => any_cv_eq_not t s)
    (xs.drop (w - 1)) (xs.take (w - 1)) _

/-- The instrumented variable-mode Any run is the pointwise negation of
the instrumented variable-mode All run on the negated truthiness. -/
theorem runVariableT_any_eq (t : α → Bool) (xs : List α) (w : Nat) :
    runVariableT (Any t) xs w =
      (runVariableT (All (fun a => ! t a)) xs w).map
        (fun e => (! e.1, e.2.1, e.2.2)) := by
  have hstep := anyStep_eq_allStep_not t
  simp only [runVariableT]
  exact goVariableT_sim (All (fun a => ! t a)) (Any t) Bool.not w
    (fun s x => by simp only [Any, All]; rw [hstep])
    (fun s x => by simp only [Any, All]; rw [hstep])
    (fun s => rfl) (fun s => rfl) (fun s => any_cv_eq_not t s)
    xs false _ []

/-- Conjunction over negated truthiness is the negated disjunction. -/
theorem all_not_eq_not_any (t : α → Bool) (l : List α) :
    (l.all fun a => ! t a) = ! l.any t := by
  induction l with
  | nil => rfl
  | cons a l ih => simp [List.all_cons, List.any_cons, ih, Bool.not_or]

/-- Brute-force duality between the All and Any aggregates. -/
theorem bruteAll_not (t : α → Bool) (cs : List α) (m : Nat) :
    bruteAll (fun a => ! t a) cs m = ! bruteAny t cs m := by
  unfold bruteAll bruteAny
  exact all_not_eq_not_any t (lastN cs m)

/-- Every yield of the whole instrumented fixed-mode Any run is
brute-force correct. -/
theorem runFixedT_any_inv (t : α → Bool) (xs : List α) (w : Nat) :
    ∀ e ∈ runFixedT (Any t) xs w, anyEntryOk t e := by
  intro e he
  rw [runFixedT_any_eq] at he
  rcases List.mem_map.mp he with ⟨e0, he0, rfl⟩
  have h := runFixedT_all_inv (fun a => ! t a) xs w e0 he0
  unfold allEntryOk at h
  unfold anyEntryOk
  rw [h, bruteAll_not, Bool.not_not]

/-- Every yield of the whole instrumented variable-mode Any run is
brute-force correct. -/
theorem runVariableT_any_inv (t : α → Bool) (xs : List α) (w : Nat)
    (hw : 1 ≤ w) :
    ∀ e ∈ runVariableT (Any t) xs w, anyEntryOk t e := by
  intro e he
  rw [runVariableT_any_eq] at he
  rcases List.mem_map.mp he with ⟨e0, he0, rfl⟩
  have h := runVariableT_all_inv (fun a => ! t a) xs w hw e0 he0
  unfold allEntryOk at h
  unfold anyEntryOk
  rw [h, bruteAll_not, Bool.not_not]

/-- C1: at every step at which an aggregate value is yielded, the
incremental `current_value` computed from the O(1) state (`_i`, `_obs`,
`_last_false` / `_last_true`) equals the brute-force aggregate over the
last `_obs` values consumed from the source: the conjunction of their
truthiness for All, the disjunction for Any, in fixed and variable mode
alike (stated over the ghost-instrumented runs, which project onto the
plain runs by `runFixedT_fst` / `runVariableT_fst`). -/
theorem spec_C1 {α : Type} (t : α → Bool) (xs : List α) (w : Nat)
    (hw : 1 ≤ w) :
    (∀ e ∈ runFixedT (All t) xs w, allEntryOk t e) ∧
    (∀ e ∈ runVariableT (All t) xs w, allEntryOk t e) ∧
    (∀ e ∈ runFixedT (Any t) xs w, anyEntryOk t e) ∧
    (∀ e ∈ runVariableT (Any t) xs w, anyEntryOk t e) :=
  ⟨runFixedT_all_inv t xs w, runVariableT_all_inv t xs w hw,
    runFixedT_any_inv t xs w, runVariableT_any_inv t xs w hw⟩

/-- Witness for spec_C1 at a concrete input. -/
theorem spec_C1_witness :
    1 ≤ 2 ∧
    (∀ e ∈ runFixedT (All (fun b : Bool => b)) [true, false, true] 2,
      allEntryOk (fun b : Bool => b) e) :=
  ⟨by decide,
    (spec_C1 (fun b : Bool => b) [true, false, true] 2 (by decide)).1⟩

/-- Unfolding lemma: fixed stepping at a pending value. -/
theorem goFixed_cons (S : Strategy α γ σ) (s : σ) (x : α) (xs : List α) :
    goFixed S s (x :: xs) =
      S.current_value (S.update s x) :: goFixed S (S.update s x) xs := rfl

/-- Unfolding lemma: shrink stepping at positive fuel. -/
theorem drain_succ (S : Strategy α γ σ) (fuel : Nat) (s : σ) :
    drain S (fuel + 1) s =
      if S.obs s = 1 then []
      else S.current_value (S.remove_old s) :: drain S fuel (S.remove_old s) := rfl

/-- Simulation of plain fixed stepping under an input transformation `f`
and an output transformation `g`. -/
theorem goFixed_sim {α' γ' : Type} (S : Strategy α γ σ) (S' : Strategy α' γ' σ)
    (f : α' → α) (g : γ → γ')
    (hU : ∀ s y, S'.update s y = S.update s (f y))
    (hC : ∀ s, S'.current_value s = g (S.current_value s))
    (ys : List α') :
    ∀ s : σ, goFixed S' s ys = (goFixed S s (ys.map f)).map g := by
  induction ys with
  | nil => intro s; rfl
  | cons y ys ih =>
    intro s
    simp only [List.map_cons, goFixed_cons, List.map_cons, hU, hC]
    rw [ih]

/-- Simulation of the plain shrink phase (the source value type plays no
role in shrinking). -/
theorem drain_sim {α' γ' : Type} (S : Strategy α γ σ) (S' : Strategy α' γ' σ)
    (g : γ → γ')
    (hR : ∀ s, S'.remove_old s = S.remove_old s)
    (hO : ∀ s, S'.obs s = S.obs s)
    (hC : ∀ s, S'.current_value s = g (S.current_value s))
    (fuel : Nat) :
    ∀ s : σ, drain S' fuel s = (drain S fuel s).map g := by
  induction fuel with
  | zero => intro s; rfl
  | succ n ih =>
    intro s
    rw [drain_succ, drain_succ, hO]
    by_cases h : S.obs s = 1
    · rw [if_pos h, if_pos h]
      rfl
    · rw [if_neg h, if_neg h, List.map_cons, hR, hC, ih]

/-- Simulation of plain variable stepping under an input transformation
`f` and an output transformation `g`. -/
theorem goVariable_sim {α' γ' : Type} (S : Strategy α γ σ)
    (S' : Strategy α' γ' σ) (f : α' → α) (g : γ → γ') (w : Nat)
    (hA : ∀ s y, S'.add_new s y = S.add_new s (f y))
    (hU : ∀ s y, S'.update s y = S.update s (f y))
    (hR : ∀ s, S'.remove_old s = S.remove_old s)
    (hO : ∀ s, S'.obs s = S.obs s)
    (hC : ∀ s, S'.current_value s = g (S.current_value s))
    (ys : List α') :
    ∀ (filled : Bool) (s : σ),
      goVariable S' w filled s ys =
        (goVariable S w filled s (ys.map f)).map g := by
  induction ys with
  | nil =>
    intro filled s
    rw [List.map_nil, goVariable_nil, goVariable_nil, hO]
    by_cases h : filled = false ∧ S.obs s < (w : Int)
    · rw [if_pos h, if_pos h]
      rfl
    · rw [if_neg h, if_neg h]
      exact drain_sim S S' g hR hO hC _ s
  | cons y ys ih =>
    intro filled s
    rw [List.map_cons, goVariable_cons, goVariable_cons, hO]
    by_cases h : filled = false ∧ S.obs s < (w : Int)
    · rw [if_pos h, if_pos h, List.map_cons, hA, hO, hC, ih]
    · rw [if_neg h, if_neg h, List.map_cons, hU, hC, ih]

/-- Run-level simulation, fixed mode. -/
theorem runFixed_sim {α' γ' : Type} (S : Strategy α γ σ)
    (S' : Strategy α' γ' σ) (f : α' → α) (g : γ → γ') (w : Nat)
    (hIF : ∀ l, S'.init_fixed l w = S.init_fixed (l.map f) w)
    (hU : ∀ s y, S'.update s y = S.update s (f y))
    (hC : ∀ s, S'.current_value s = g (S.current_value s))
    (ys : List α') :
    runFixed S' ys w = (runFixed S (ys.map f) w).map g := by
  unfold runFixed
  rw [hIF, goFixed_sim S S' f g hU hC, List.map_take, List.map_drop]

/-- Run-level simulation, variable mode. -/
theorem runVariable_sim {α' γ' : Type} (S : Strategy α γ σ)
    (S' : Strategy α' γ' σ) (f : α' → α) (g : γ → γ') (w : Nat)
    (hIV : S'.init_variable w = S.init_variable w)
    (hA : ∀ s y, S'.add_new s y = S.add_new s (f y))
    (hU : ∀ s y, S'.update s y = S.update s (f y))
    (hR : ∀ s, S'.remove_old s = S.remove_old s)
    (hO : ∀ s, S'.obs s = S.obs s)
    (hC : ∀ s, S'.current_value s = g (S.current_value s))
    (ys : List α') :
    runVariable S' ys w = (runVariable S (ys.map f) w).map g := by
  unfold runVariable
  rw [hIV, goVariable_sim S S' f g w hA hU hR hO hC]

/-- C5: AND/OR duality.  For every boolean sequence and window size, in
fixed mode and in variable mode, the outputs of All on the sequence are
exactly the elementwise negations of the outputs of Any on the
elementwise-negated sequence (so in particular every valid output index
exists on both sides and the k-th entries are negations of each other). -/
theorem spec_C5 (xs : List Bool) (w : Nat) :
    runFixed (All (fun b : Bool => b)) xs w =
      (runFixed (Any (fun b : Bool => b)) (xs.map Bool.not) w).map Bool.not ∧
    runVariable (All (fun b : Bool => b)) xs w =
      (runVariable (Any (fun b : Bool => b)) (xs.map Bool.not) w).map Bool.not := by
  have hfun : (fun (s : LogicalSt) (y : Bool) =>
      allStep (fun b : Bool => b) s (Bool.not y)) = anyStep (fun b : Bool => b) := by
    funext s y
    cases y <;> simp [anyStep, allStep]
  have hU : ∀ (s : LogicalSt) (y : Bool),
      (Any (fun b : Bool => b)).update s y =
        (All (fun b : Bool => b)).update s (Bool.not y) := by
    intro s y
    cases y <;> simp [Any, All, anyStep, allStep]
  have hA : ∀ (s : LogicalSt) (y : Bool),
      (Any (fun b : Bool => b)).add_new s y =
        (All (fun b : Bool => b)).add_new s (Bool.not y) := by
    intro s y
    cases y <;> simp [Any, All, anyStep, allStep]
  have hC : ∀ s : LogicalSt,
      (Any (fun b : Bool => b)).current_value s =
        Bool.not ((All (fun b : Bool => b)).current_value s) := by
    intro s
    simp only [Any, All]
    rw [← decide_not]
    exact decide_eq_decide.mpr (by omega)
  have hIF : ∀ l : List Bool,
      (Any (fun b : Bool => b)).init_fixed l w =
        (All (fun b : Bool => b)).init_fixed (l.map Bool.not) w := by
    intro l
    simp only [Any, All, anyInitFixed, allInitFixed, List.foldl_map, hfun]
  have hnn : ∀ l : List Bool, (l.map Bool.not).map Bool.not = l := by
    intro l
    induction l with
    | nil => rfl
    | cons a l ih => simp [List.map_cons, ih, Bool.not_not]
  constructor
  · have h1 := runFixed_sim (All (fun b : Bool => b)) (Any (fun b : Bool => b))
      Bool.not Bool.not w hIF hU hC (xs.map Bool.not)
    rw [hnn xs] at h1
    rw [h1, hnn (runFixed (All (fun b : Bool => b)) xs w)]
  · have h2 := runVariable_sim (All (fun b : Bool => b)) (Any (fun b : Bool => b))
      Bool.not Bool.not w rfl hA hU (fun s => rfl) (fun s => rfl) hC
      (xs.map Bool.not)
    rw [hnn xs] at h2
    rw [h2, hnn (runVariable (All (fun b : Bool => b)) xs w)]

end Rolling
